import Mathlib

/-!
Shallow embedding of the Pivot-SPDZ external client
(`ExternalIO/spdz-decision-tree-app.cpp`) and verification of the
specification's claims about it.

Modelling conventions:
* the prime field `gfp` is `ZMod p` for a parameter `p`;
* C++ `float` values are modelled as rationals `ℚ` (every comparison,
  addition and power-of-two scaling appearing in the translated code is
  exact in binary floating point at the magnitudes involved);
* network receives become explicit arguments (one list of field elements
  per engine), network sends become explicit results (one list of field
  elements per engine);
* `exit(1)` (session abort) and out-of-bounds vector reads (undefined
  behaviour) are modelled by an `Option` result being `none`.
-/

namespace PivotSPDZ

/-- Constant `SPDZ_FIXED_PRECISION` from the source (number of fractional
bits of the fixed-point encoding). -/
def SPDZ_FIXED_PRECISION : ℕ := 8

/-- Constant `MAX_SPLIT_NUM` from the source. -/
def MAX_SPLIT_NUM : ℕ := 8

/-- A multiplication triple of field elements, as aggregated by the client. -/
abbrev Triple (p : ℕ) := ZMod p × ZMod p × ZMod p

/-- Componentwise addition of triples (the `triples[j][k] += triple_shares[k]`
accumulation of `send_private_inputs`). -/
def addTriple {p : ℕ} (x y : Triple p) : Triple p :=
  (x.1 + y.1, x.2.1 + y.2.1, x.2.2 + y.2.2)

/-- The receive-and-accumulate loop of `send_private_inputs` (source lines
146-159): for each input index `i`, the aggregated triple is the sum, over
the per-engine share lists in engine order, of that engine's `i`-th triple
share, starting from `(0,0,0)`. -/
def aggregate_triples (p : ℕ) (num_inputs : ℕ)
    (shares : List (List (Triple p))) : List (Triple p) :=
  (List.range num_inputs).map fun i =>
    shares.foldl (fun acc party => addTriple acc (party.getD i (0, 0, 0))) (0, 0, 0)

/-- Function `send_private_inputs` (source lines 138-180). It receives
triple shares from every engine, aggregates them, checks each aggregated
triple `(a,b,c)` for `a*b = c` and calls `exit(1)` on any failure (before
anything is written to any socket); otherwise it packs `values[i] +
triples[i][0]` and sends the same buffer to every engine.  The abort is
modelled as `none`; a successful run returns the per-engine list of sent
messages. -/
def send_private_inputs (p : ℕ) (values : List (ZMod p))
    (shares : List (List (Triple p))) (n_parties : ℕ) :
    Option (List (List (ZMod p))) :=
  let triples := aggregate_triples p values.length shares
  if ∀ t ∈ triples, t.1 * t.2.1 = t.2.2 then
    some (List.replicate n_parties
      (List.zipWith (fun v t => v + t.1) values triples))
  else none

/-- C library `round`: round half away from zero (`round(shares[i] * pow(2,
SPDZ_FIXED_PRECISION))` in the source). -/
def cround (x : ℚ) : ℤ :=
  if 0 ≤ x then ⌊x + 1 / 2⌋ else ⌈x - 1 / 2⌉

/-- Fixed-point encoding step of `send_private_batch_shares` (source line
190): `long_shares[i] = round(shares[i] * 2^SPDZ_FIXED_PRECISION)`. -/
def encode_fixed (x : ℚ) : ℤ :=
  cround (x * 2 ^ SPDZ_FIXED_PRECISION)

/-- Function `send_private_batch_shares` (source lines 183-204): fixed-point
encode every float, lift the signed integers into the field
(`input_values_gfp[i].assign(long_shares[i])`) and delegate to
`send_private_inputs`. -/
def send_private_batch_shares (p : ℕ) (shares : List ℚ)
    (triple_shares : List (List (Triple p))) (n_parties : ℕ) :
    Option (List (List (ZMod p))) :=
  let long_shares := shares.map encode_fixed
  let input_values_gfp : List (ZMod p) := long_shares.map Int.cast
  send_private_inputs p input_values_gfp triple_shares n_parties

/-- Library function `to_signed_bigint`: the representative of a field
element in the symmetric interval around 0 (values above `(p-1)/2` are
shifted down by `p`). -/
def to_signed (p : ℕ) (x : ZMod p) : ℤ :=
  if (p - 1) / 2 < x.val then (x.val : ℤ) - p else (x.val : ℤ)

/-- Function `receive_result` (source lines 244-278): receive `size` field
elements from each of the `n_parties` engines in engine order, accumulating
them elementwise into `output_values`; decode the first `size - 1` sums from
fixed point and the last sum as a signed integer (`best_split_index`). -/
def receive_result (p : ℕ) (shares : List (List (ZMod p)))
    (n_parties size : ℕ) : List ℚ × ℤ :=
  let output_values : List (ZMod p) :=
    (List.range n_parties).foldl
      (fun acc i =>
        (List.range size).map fun j => acc.getD j 0 + (shares.getD i []).getD j 0)
      ((List.range size).map fun _ => (0 : ZMod p))
  let res_shares : List ℚ :=
    (List.range (size - 1)).map fun i =>
      (to_signed p (output_values.getD i 0) : ℚ) * ((2 : ℚ) ^ SPDZ_FIXED_PRECISION)⁻¹
  (res_shares, to_signed p (output_values.getD (size - 1) 0))

/-- Function `sort_indexes` (source lines 316-328): `std::sort` over
`iota`-initialised indices with comparator `v[i1] < v[i2]`.  Modelled as a
stable insertion sort by value, which is one execution permitted by the
`std::sort` contract (see `IsStdSortResult` for the contract itself, and
`std_sort_values_unique` for the fact that every execution of the contract
produces the same sequence of values, so the modelling choice does not
affect any function reading values through the sorted indices). -/
def sort_indexes (v : List ℚ) : List ℕ :=
  List.insertionSort (fun i1 i2 => v.getD i1 0 ≤ v.getD i2 0) (List.range v.length)

/-- What the C++ standard guarantees about the result of the `std::sort`
call in `sort_indexes`: the output is a permutation of `0..n-1` that is
sorted with respect to the strict weak order `v[i1] < v[i2]`, i.e. values
are non-decreasing along it.  The order of tied indices is unspecified. -/
def IsStdSortResult (v : List ℚ) (idx : List ℕ) : Prop :=
  idx.Perm (List.range v.length) ∧
    idx.Pairwise fun i1 i2 => v.getD i1 0 ≤ v.getD i2 0

/-- Stability by value: along the returned index order, tied positions keep
their original relative order. -/
def StableByValue (v : List ℚ) (idx : List ℕ) : Prop :=
  idx.Pairwise fun i1 i2 => v.getD i1 0 = v.getD i2 0 → i1 < i2

/-- Scanning loop of `compute_distinct_values`, after the first element has
been emitted: skip the current value when it equals the last emitted one,
otherwise emit it. -/
def cdv_go : ℚ → List ℚ → List ℚ
  | _, [] => []
  | last, x :: xs => if last = x then cdv_go last xs else x :: cdv_go x xs

/-- Function `compute_distinct_values` (source lines 331-352): scan
`feature_values[sorted_indexes[i]]` in order, collapsing consecutive
duplicates. -/
def compute_distinct_values (feature_values : List ℚ)
    (sorted_indexes : List ℕ) : List ℚ :=
  match sorted_indexes.map (fun i => feature_values.getD i 0) with
  | [] => []
  | x :: xs => x :: cdv_go x xs

/-- Function `compute_splits` (source lines 355-412).  The continuous branch
reads `sorted_indexes[(i+1)*n_sample_per_bin]` and
`sorted_indexes[(i+1)*n_sample_per_bin + 1]` for `i` in `0..7` with no
bounds guard; the largest position read is `8*n_sample_per_bin + 1`, and
when that position is not `< n_samples` the C++ code reads past the end of
the vector (undefined behaviour), modelled here as `none`. -/
def compute_splits (feature_values : List ℚ) : Option (List ℚ) :=
  let sorted_indexes := sort_indexes feature_values
  let n_samples := feature_values.length
  let distinct_values := compute_distinct_values feature_values sorted_indexes
  if MAX_SPLIT_NUM + 1 ≤ distinct_values.length then
    let n_sample_per_bin := n_samples / (MAX_SPLIT_NUM + 1)
    if MAX_SPLIT_NUM * n_sample_per_bin + 1 < n_samples then
      some ((MAX_SPLIT_NUM : ℚ) :: (List.range MAX_SPLIT_NUM).map fun i =>
        (feature_values.getD (sorted_indexes.getD ((i + 1) * n_sample_per_bin) 0) 0 +
         feature_values.getD (sorted_indexes.getD ((i + 1) * n_sample_per_bin + 1) 0) 0) / 2)
    else none
  else if 1 < distinct_values.length then
    some (((distinct_values.length - 1 : ℕ) : ℚ) ::
      (List.range MAX_SPLIT_NUM).map fun i =>
        if i ≤ distinct_values.length - 1 then distinct_values.getD i 0 else -1)
  else
    some ((0 : ℚ) :: List.replicate MAX_SPLIT_NUM (-1))

/-- Function `compute_feature_split_ivs` (source lines 415-448): for each of
the `split_values.size() - 1` thresholds `split_values[s+1]`, build the left
indicator row (`1` iff `feature_values[i] <= threshold`) and the right
indicator row (the pointwise complement). -/
def compute_feature_split_ivs (feature_values split_values : List ℚ) :
    List (List ℕ) × List (List ℕ) :=
  ((List.range (split_values.length - 1)).map fun s =>
      feature_values.map fun x => if x ≤ split_values.getD (s + 1) 0 then 1 else 0,
   (List.range (split_values.length - 1)).map fun s =>
      feature_values.map fun x => if x ≤ split_values.getD (s + 1) 0 then 0 else 1)

/-- Class-collection loop of `compute_label_class_ivs` (source lines
452-463): append each label not already present, keeping first-occurrence
order. -/
def label_classes (training_labels : List ℚ) : List ℚ :=
  training_labels.foldl
    (fun classes x => if x ∈ classes then classes else classes ++ [x]) []

/-- Function `compute_label_class_ivs` (source lines 451-478): one indicator
row per collected class, `1` at the samples carrying that label. -/
def compute_label_class_ivs (training_labels : List ℚ) : List (List ℕ) :=
  (label_classes training_labels).map fun c =>
    training_labels.map fun x => if x = c then 1 else 0

/-- The feature values read through the sorted index order: position `q`
holds the `q`-th smallest feature value. -/
def sorted_feature_values (v : List ℚ) : List ℚ :=
  (sort_indexes v).map fun i => v.getD i 0

/-- The distinct-value list `compute_splits` actually computes for a
column. -/
def splits_distinct_values (v : List ℚ) : List ℚ :=
  compute_distinct_values v (sort_indexes v)

/-- Threshold description used by the specification for continuous mode:
the average of the sorted feature values at positions
`(i+1)*bin_size` and `(i+1)*bin_size + 1`, with `bin_size = n / 9`. -/
def spec_bin_threshold (v : List ℚ) (i : ℕ) : ℚ :=
  ((sorted_feature_values v).getD ((i + 1) * (v.length / (MAX_SPLIT_NUM + 1))) 0 +
   (sorted_feature_values v).getD ((i + 1) * (v.length / (MAX_SPLIT_NUM + 1)) + 1) 0) / 2

/-- Sum, in engine-index order `0..n_parties-1`, of the `j`-th field element
received from each engine (the reconstruction described by the
specification for `receive_result`). -/
def engine_sum (p : ℕ) (shares : List (List (ZMod p))) (n_parties j : ℕ) : ZMod p :=
  ((List.range n_parties).map fun i => (shares.getD i []).getD j 0).sum

/-! Helper lemmas about the sorting pipeline. -/

lemma getD_map_range {α : Type} (g : ℕ → α) (d : α) {j n : ℕ} (h : j < n) :
    ((List.range n).map g).getD j d = g j := by
  rw [List.getD_eq_getElem?_getD, List.getElem?_map, List.getElem?_range h]
  rfl

lemma sort_indexes_length (v : List ℚ) : (sort_indexes v).length = v.length := by
  rw [sort_indexes, List.length_insertionSort, List.length_range]

lemma sort_indexes_perm (v : List ℚ) :
    (sort_indexes v).Perm (List.range v.length) :=
  List.perm_insertionSort _ _

lemma sort_indexes_pairwise (v : List ℚ) :
    (sort_indexes v).Pairwise fun i1 i2 => v.getD i1 0 ≤ v.getD i2 0 := by
  haveI : IsTotal ℕ fun i1 i2 => v.getD i1 0 ≤ v.getD i2 0 :=
    ⟨fun a b => le_total _ _⟩
  haveI : IsTrans ℕ fun i1 i2 => v.getD i1 0 ≤ v.getD i2 0 :=
    ⟨fun _ _ _ hab hbc => le_trans hab hbc⟩
  exact List.sorted_insertionSort _ _

lemma sort_indexes_isStdSortResult (v : List ℚ) :
    IsStdSortResult v (sort_indexes v) :=
  ⟨sort_indexes_perm v, sort_indexes_pairwise v⟩

/-- Any two outcomes of the `std::sort` contract read out the same value
sequence: the tie-breaking freedom of `std::sort` cannot change any value
observed through the sorted indices. -/
lemma std_sort_values_unique {v : List ℚ} {idx1 idx2 : List ℕ}
    (h1 : IsStdSortResult v idx1) (h2 : IsStdSortResult v idx2) :
    idx1.map (fun i => v.getD i 0) = idx2.map fun i => v.getD i 0 := by
  have s1 : List.Sorted (· ≤ ·) (idx1.map fun i => v.getD i 0) :=
    h1.2.map _ fun _ _ h => h
  have s2 : List.Sorted (· ≤ ·) (idx2.map fun i => v.getD i 0) :=
    h2.2.map _ fun _ _ h => h
  exact List.eq_of_perm_of_sorted
    ((h1.1.trans h2.1.symm).map fun i => v.getD i 0) s1 s2

lemma sorted_feature_values_sorted (v : List ℚ) :
    List.Sorted (· ≤ ·) (sorted_feature_values v) :=
  (sort_indexes_pairwise v).map _ fun _ _ h => h

lemma sorted_feature_values_length (v : List ℚ) :
    (sorted_feature_values v).length = v.length := by
  rw [sorted_feature_values, List.length_map, sort_indexes_length]

lemma sfv_getD_mono {v : List ℚ} {a b : ℕ} (hab : a ≤ b) (hb : b < v.length) :
    (sorted_feature_values v).getD a 0 ≤ (sorted_feature_values v).getD b 0 := by
  rcases Nat.lt_or_ge a b with hlt | hge
  · have hlen := sorted_feature_values_length v
    have ha' : a < (sorted_feature_values v).length := by omega
    have hb' : b < (sorted_feature_values v).length := by omega
    rw [List.getD_eq_getElem?_getD, List.getD_eq_getElem?_getD,
      List.getElem?_eq_getElem ha', List.getElem?_eq_getElem hb',
      Option.getD_some, Option.getD_some]
    exact List.pairwise_iff_getElem.mp (sorted_feature_values_sorted v) a b ha' hb' hlt
  · have : a = b := le_antisymm hab hge
    rw [this]

lemma getD_sort_indexes_val {v : List ℚ} {q : ℕ} (h : q < v.length) :
    v.getD ((sort_indexes v).getD q 0) 0 = (sorted_feature_values v).getD q 0 := by
  have h' : q < (sort_indexes v).length := by rw [sort_indexes_length]; exact h
  simp only [sorted_feature_values, List.getD_eq_getElem?_getD, List.getElem?_map,
    List.getElem?_eq_getElem h', Option.map_some, Option.getD_some]
  rfl

/-! Helper lemmas about the distinct-value scan. -/

lemma cdv_go_chain : ∀ {xs : List ℚ} {last : ℚ},
    List.Chain (· ≤ ·) last xs → List.Chain (· < ·) last (cdv_go last xs) := by
  intro xs
  induction xs with
  | nil => intro last _; exact List.Chain.nil
  | cons x xs ih =>
    intro last hc
    rw [List.chain_cons] at hc
    rw [cdv_go]
    by_cases hx : last = x
    · rw [if_pos hx]
      exact ih (hx ▸ hc.2)
    · rw [if_neg hx]
      exact List.Chain.cons (lt_of_le_of_ne hc.1 hx) (ih hc.2)

lemma cdv_go_length_le : ∀ (xs : List ℚ) (last : ℚ),
    (cdv_go last xs).length ≤ xs.length := by
  intro xs
  induction xs with
  | nil => intro last; exact Nat.le_refl 0
  | cons x xs ih =>
    intro last
    rw [cdv_go]
    by_cases hx : last = x
    · rw [if_pos hx]
      exact Nat.le_succ_of_le (ih last)
    · rw [if_neg hx]
      exact Nat.succ_le_succ (ih x)

lemma splits_distinct_values_chain (v : List ℚ) :
    List.Chain' (· < ·) (splits_distinct_values v) := by
  have hs : List.Sorted (· ≤ ·) (sorted_feature_values v) :=
    sorted_feature_values_sorted v
  rw [splits_distinct_values, compute_distinct_values]
  rcases hm : (sort_indexes v).map fun i => v.getD i 0 with _ | ⟨x, xs⟩
  · exact List.chain'_nil
  · rw [sorted_feature_values, hm] at hs
    haveI : IsTrans ℚ (· ≤ ·) := ⟨fun _ _ _ hab hbc => le_trans hab hbc⟩
    have hch : List.Chain' (· ≤ ·) (x :: xs) := List.chain'_iff_pairwise.mpr hs
    have hchain : List.Chain (· ≤ ·) x xs := hch
    exact (cdv_go_chain hchain : List.Chain (· < ·) x (cdv_go x xs))

lemma splits_distinct_values_length_le (v : List ℚ) :
    (splits_distinct_values v).length ≤ v.length := by
  rw [splits_distinct_values, compute_distinct_values]
  rcases hm : (sort_indexes v).map fun i => v.getD i 0 with _ | ⟨x, xs⟩
  · exact Nat.zero_le _
  · have hlen : v.length = xs.length + 1 := by
      have := congrArg List.length hm
      rw [List.length_map, sort_indexes_length] at this
      rw [this, List.length_cons]
    rw [List.length_cons, hlen]
    exact Nat.succ_le_succ (cdv_go_length_le xs x)

/-! Arithmetic facts about the bin positions of continuous mode. -/

lemma bin_guard {n : ℕ} (h : 10 ≤ n) : 8 * (n / 9) + 1 < n := by
  have h1 := Nat.div_add_mod n 9
  have h2 : n % 9 < 9 := Nat.mod_lt _ (by norm_num)
  have h3 : 1 ≤ n / 9 := by
    rw [Nat.le_div_iff_mul_le (by norm_num)]
    omega
  omega

/-! Branch lemmas for `compute_splits`. -/

lemma compute_splits_continuous {v : List ℚ}
    (h9 : 9 ≤ (splits_distinct_values v).length)
    (hg : 8 * (v.length / 9) + 1 < v.length) :
    compute_splits v = some ((8 : ℚ) :: (List.range 8).map fun i =>
      (v.getD ((sort_indexes v).getD ((i + 1) * (v.length / 9)) 0) 0 +
       v.getD ((sort_indexes v).getD ((i + 1) * (v.length / 9) + 1) 0) 0) / 2) := by
  rw [splits_distinct_values] at h9
  simp only [compute_splits, MAX_SPLIT_NUM]
  rw [if_pos h9]
  norm_num
  exact fun hcon => absurd hcon (by omega)

lemma compute_splits_categorical {v : List ℚ}
    (h1 : 1 < (splits_distinct_values v).length)
    (h8 : (splits_distinct_values v).length < 9) :
    compute_splits v = some
      ((((splits_distinct_values v).length - 1 : ℕ) : ℚ) :: (List.range 8).map fun i =>
        if i ≤ (splits_distinct_values v).length - 1
        then (splits_distinct_values v).getD i 0 else -1) := by
  have h9 : ¬ 9 ≤ (compute_distinct_values v (sort_indexes v)).length := by
    rw [← splits_distinct_values]; omega
  simp only [compute_splits, MAX_SPLIT_NUM, splits_distinct_values] at h1 ⊢
  rw [if_neg h9, if_pos h1]

lemma compute_splits_degenerate {v : List ℚ}
    (hd : (splits_distinct_values v).length ≤ 1) :
    compute_splits v = some ((0 : ℚ) :: List.replicate 8 (-1)) := by
  have h9 : ¬ 9 ≤ (compute_distinct_values v (sort_indexes v)).length := by
    rw [← splits_distinct_values]; omega
  have h1 : ¬ 1 < (compute_distinct_values v (sort_indexes v)).length := by
    rw [← splits_distinct_values]; omega
  simp only [compute_splits, MAX_SPLIT_NUM]
  rw [if_neg h9, if_neg h1]

lemma map_range_if_getD {l : List ℚ} (hl : 1 ≤ l.length) (h8 : l.length ≤ 8) :
    ((List.range 8).map fun i => if i ≤ l.length - 1 then l.getD i 0 else (-1 : ℚ)) =
      l ++ List.replicate (8 - l.length) (-1) := by
  apply List.ext_getElem?
  intro n
  rw [List.getElem?_map]
  by_cases hn : n < 8
  · rw [List.getElem?_range hn, Option.map_some']
    by_cases hnl : n < l.length
    · rw [if_pos (by omega), List.getElem?_append_left hnl,
        List.getD_eq_getElem?_getD, List.getElem?_eq_getElem hnl, Option.getD_some]
    · rw [if_neg (by omega), List.getElem?_append_right (by omega),
        List.getElem?_replicate_of_lt (by omega)]
  · have hlhs : (List.range 8)[n]? = none := by
      rw [List.getElem?_eq_none]
      rw [List.length_range]
      omega
    have hrhs : (l ++ List.replicate (8 - l.length) (-1 : ℚ))[n]? = none := by
      rw [List.getElem?_eq_none]
      rw [List.length_append, List.length_replicate]
      omega
    rw [hlhs, hrhs, Option.map_none']

/-! Claim C3. -/

/-- C3: the claim states that in continuous mode the upper averaging
position `(i+1)*bin_size + 1` is clamped to `n - 1`, so that every accessed
position is strictly below the sample count.  The code has no such clamp:
for the 9-sample column `[1,…,9]` (9 distinct values, so continuous mode,
`bin_size = 1`) the last bin boundary `i = 7` reads position `8*1 + 1 = 9`,
equal to the sample count, so the code reads one past the end of
`sorted_indexes` (undefined behaviour, modelled as `compute_splits = none`). -/
theorem claim_C3_no_upper_clamp :
    9 ≤ (splits_distinct_values [1, 2, 3, 4, 5, 6, 7, 8, 9]).length ∧
    (7 + 1) * (([1, 2, 3, 4, 5, 6, 7, 8, 9] : List ℚ).length / (MAX_SPLIT_NUM + 1)) + 1 =
      ([1, 2, 3, 4, 5, 6, 7, 8, 9] : List ℚ).length ∧
    compute_splits [1, 2, 3, 4, 5, 6, 7, 8, 9] = none :=
  of_decide_eq_true rfl

/-! Claim C4. -/

/-- C4: the claim states that `sort_indexes` sorts stably, tied values
keeping their original index order.  `sort_indexes` uses `std::sort`, whose
contract (`IsStdSortResult`) only guarantees a value-sorted permutation and
leaves the order of tied indices unspecified: for the two-element column
`[1, 1]` the returned order `[1, 0]` satisfies the contract yet violates
stability, so the code does not establish the claim (the specification
explicitly demands a stable sort). -/
theorem claim_C4_sort_not_stable :
    IsStdSortResult [1, 1] [1, 0] ∧ ¬ StableByValue [1, 1] [1, 0] := by
  refine ⟨⟨by decide, by decide⟩, fun h => ?_⟩
  have h10 := (List.pairwise_cons.mp h).1 0 (by decide) rfl
  omega

/-! Claim C7. -/

/-- C7: for a distinct-value count `dc` in `[2, 8]` the split vector is
`[dc - 1, v_0, …, v_{dc-1}, -1, …, -1]` with the distinct values in strictly
ascending order; the example `[1,1,2,2,3]` yields
`[2, 1, 2, 3, -1, -1, -1, -1, -1]`; and a single-distinct-value column
yields `[0, -1, …, -1]` without aborting (the code prints a warning and
returns normally; in the model every non-abort path is `some`). -/
theorem claim_C7_categorical_and_degenerate :
    (∀ v : List ℚ, 2 ≤ (splits_distinct_values v).length →
      (splits_distinct_values v).length ≤ 8 →
      compute_splits v = some
        ((((splits_distinct_values v).length - 1 : ℕ) : ℚ) ::
          (splits_distinct_values v ++
           List.replicate (8 - (splits_distinct_values v).length) (-1))) ∧
      List.Chain' (· < ·) (splits_distinct_values v)) ∧
    compute_splits [1, 1, 2, 2, 3] = some [2, 1, 2, 3, -1, -1, -1, -1, -1] ∧
    (∀ v : List ℚ, (splits_distinct_values v).length = 1 →
      compute_splits v = some ((0 : ℚ) :: List.replicate 8 (-1))) := by
  refine ⟨fun v h2 h8 => ⟨?_, splits_distinct_values_chain v⟩,
    of_decide_eq_true rfl, fun v h1 => compute_splits_degenerate (by omega)⟩
  rw [compute_splits_categorical (by omega) (by omega),
    map_range_if_getD (by omega) h8]

/-- C7 witness: the general parts of the theorem instantiated at the
5-sample categorical column and the 4-sample degenerate column. -/
theorem claim_C7_witness :
    2 ≤ (splits_distinct_values [1, 1, 2, 2, 3]).length ∧
    (splits_distinct_values [1, 1, 2, 2, 3]).length ≤ 8 ∧
    (compute_splits [1, 1, 2, 2, 3] = some
        ((((splits_distinct_values [1, 1, 2, 2, 3]).length - 1 : ℕ) : ℚ) ::
          (splits_distinct_values [1, 1, 2, 2, 3] ++
           List.replicate (8 - (splits_distinct_values [1, 1, 2, 2, 3]).length) (-1))) ∧
      List.Chain' (· < ·) (splits_distinct_values [1, 1, 2, 2, 3])) ∧
    (splits_distinct_values [4, 4, 4, 4]).length = 1 ∧
    compute_splits [4, 4, 4, 4] = some ((0 : ℚ) :: List.replicate 8 (-1)) :=
  ⟨of_decide_eq_true rfl, of_decide_eq_true rfl,
   claim_C7_categorical_and_degenerate.1 [1, 1, 2, 2, 3]
     (of_decide_eq_true rfl) (of_decide_eq_true rfl),
   of_decide_eq_true rfl,
   claim_C7_categorical_and_degenerate.2.2 [4, 4, 4, 4] (of_decide_eq_true rfl)⟩

/-! Claim C5. -/

/-- C5 counterexample: the claim quantifies over every column with at least
9 distinct values, but for the 9-sample column `[1,…,9]` (whose
distinct-value count is 9) the code does not return the stated 9-element
vector: continuous mode reads sorted position `8*1 + 1 = 9`, one past the
end of the 9-element index vector (undefined behaviour, modelled as
`none`). -/
theorem claim_C5_counterexample :
    9 ≤ (splits_distinct_values [1, 2, 3, 4, 5, 6, 7, 8, 9]).length ∧
    compute_splits [1, 2, 3, 4, 5, 6, 7, 8, 9] = none :=
  of_decide_eq_true rfl

/-- C5 (amended to columns with at least 10 samples, the out-of-bounds
9-sample case excluded): in continuous mode `compute_splits` returns
`[8, t_0, …, t_7]` with `t_i` the average of the sorted feature values at
positions `(i+1)*bin_size` and `(i+1)*bin_size + 1` (`bin_size = n / 9`),
and the thresholds are monotonically non-decreasing. -/
theorem claim_C5_continuous_thresholds (v : List ℚ)
    (h9 : 9 ≤ (splits_distinct_values v).length) (h10 : 10 ≤ v.length) :
    compute_splits v = some ((8 : ℚ) :: (List.range 8).map (spec_bin_threshold v)) ∧
    List.Chain' (· ≤ ·) ((List.range 8).map (spec_bin_threshold v)) := by
  have e9 : MAX_SPLIT_NUM + 1 = 9 := rfl
  have hg : 8 * (v.length / 9) + 1 < v.length := bin_guard h10
  have hpos : ∀ i : ℕ, i < 8 → (i + 1) * (v.length / 9) + 1 < v.length := by
    intro i hi
    have : (i + 1) * (v.length / 9) ≤ 8 * (v.length / 9) :=
      Nat.mul_le_mul_right _ (by omega)
    omega
  constructor
  · rw [compute_splits_continuous h9 hg]
    congr 1
    congr 1
    apply List.map_congr_left
    intro i hi
    have hi8 : i < 8 := List.mem_range.mp hi
    have hp2 : (i + 1) * (v.length / 9) + 1 < v.length := hpos i hi8
    have hp1 : (i + 1) * (v.length / 9) < v.length := by omega
    rw [spec_bin_threshold, e9, getD_sort_indexes_val hp1, getD_sort_indexes_val hp2]
  · rw [List.chain'_map]
    have h8 : (8 : ℕ) = Nat.succ 7 := rfl
    rw [h8, List.chain'_range_succ]
    intro m hm
    simp only [spec_bin_threshold, e9]
    have hq2 : (m + 1 + 1) * (v.length / 9) + 1 < v.length := hpos (m + 1) (by omega)
    have hmono1 : (sorted_feature_values v).getD ((m + 1) * (v.length / 9)) 0 ≤
        (sorted_feature_values v).getD ((m + 1 + 1) * (v.length / 9)) 0 :=
      sfv_getD_mono (Nat.mul_le_mul_right _ (by omega)) (by omega)
    have hmono2 : (sorted_feature_values v).getD ((m + 1) * (v.length / 9) + 1) 0 ≤
        (sorted_feature_values v).getD ((m + 1 + 1) * (v.length / 9) + 1) 0 :=
      sfv_getD_mono (by
        have := Nat.mul_le_mul_right (v.length / 9) (show m + 1 ≤ m + 1 + 1 by omega)
        omega) (by omega)
    have hsucc : m.succ = m + 1 := rfl
    rw [hsucc]
    linarith

/-- C5 witness: the amended theorem instantiated at the 10-sample column
`[1,…,10]`. -/
theorem claim_C5_witness :
    9 ≤ (splits_distinct_values [1, 2, 3, 4, 5, 6, 7, 8, 9, 10]).length ∧
    10 ≤ ([1, 2, 3, 4, 5, 6, 7, 8, 9, 10] : List ℚ).length ∧
    (compute_splits [1, 2, 3, 4, 5, 6, 7, 8, 9, 10] = some
        ((8 : ℚ) :: (List.range 8).map (spec_bin_threshold [1, 2, 3, 4, 5, 6, 7, 8, 9, 10])) ∧
      List.Chain' (· ≤ ·)
        ((List.range 8).map (spec_bin_threshold [1, 2, 3, 4, 5, 6, 7, 8, 9, 10]))) :=
  ⟨of_decide_eq_true rfl, of_decide_eq_true rfl,
   claim_C5_continuous_thresholds [1, 2, 3, 4, 5, 6, 7, 8, 9, 10]
     (of_decide_eq_true rfl) (of_decide_eq_true rfl)⟩

/-! Helper lemmas about the indicator-vector encoders. -/

lemma getD_map_entry {l : List ℚ} {i : ℕ} (f : ℚ → ℕ) (hi : i < l.length) :
    (l.map f).getD i 0 = f (l.getD i 0) := by
  rw [List.getD_eq_getElem?_getD, List.getElem?_map, List.getElem?_eq_getElem hi,
    Option.map_some', Option.getD_some, List.getD_eq_getElem?_getD,
    List.getElem?_eq_getElem hi, Option.getD_some]

lemma label_classes_foldl_mem : ∀ (l acc : List ℚ) (y : ℚ),
    y ∈ l.foldl (fun cs x => if x ∈ cs then cs else cs ++ [x]) acc ↔
      y ∈ acc ∨ y ∈ l := by
  intro l
  induction l with
  | nil =>
    intro acc y
    simp
  | cons x l ih =>
    intro acc y
    rw [List.foldl_cons, ih, List.mem_cons]
    by_cases hx : x ∈ acc
    · rw [if_pos hx]
      constructor
      · rintro (h | h)
        · exact Or.inl h
        · exact Or.inr (Or.inr h)
      · rintro (h | h | h)
        · exact Or.inl h
        · exact Or.inl (h ▸ hx)
        · exact Or.inr h
    · rw [if_neg hx, List.mem_append, List.mem_singleton]
      tauto

lemma label_classes_mem {labels : List ℚ} {y : ℚ} :
    y ∈ label_classes labels ↔ y ∈ labels := by
  rw [label_classes, label_classes_foldl_mem]
  simp

lemma label_classes_foldl_nodup : ∀ (l acc : List ℚ), acc.Nodup →
    (l.foldl (fun cs x => if x ∈ cs then cs else cs ++ [x]) acc).Nodup := by
  intro l
  induction l with
  | nil =>
    intro acc h
    exact h
  | cons x l ih =>
    intro acc h
    rw [List.foldl_cons]
    by_cases hx : x ∈ acc
    · rw [if_pos hx]
      exact ih acc h
    · rw [if_neg hx]
      refine ih _ (List.nodup_append.mpr ⟨h, List.nodup_singleton x, ?_⟩)
      intro a ha hax
      rw [List.mem_singleton] at hax
      exact hx (hax ▸ ha)

lemma label_classes_nodup (labels : List ℚ) : (label_classes labels).Nodup :=
  label_classes_foldl_nodup labels [] List.nodup_nil

lemma label_classes_snoc (labels : List ℚ) (x : ℚ) :
    label_classes (labels ++ [x]) =
      if x ∈ label_classes labels then label_classes labels
      else label_classes labels ++ [x] := by
  rw [label_classes, List.foldl_append, List.foldl_cons, List.foldl_nil, label_classes]

/-- Classes are listed in strictly increasing order of first occurrence in
the label column. -/
lemma label_classes_first_occurrence (labels : List ℚ) :
    List.Pairwise (fun a b => List.indexOf a labels < List.indexOf b labels)
      (label_classes labels) := by
  induction labels using List.reverseRecOn with
  | nil =>
    rw [label_classes, List.foldl_nil]
    exact List.Pairwise.nil
  | append_singleton l x ih =>
    rw [label_classes_snoc]
    by_cases hx : x ∈ label_classes l
    · rw [if_pos hx]
      refine ih.imp_of_mem ?_
      intro a b ha hb hab
      rw [List.indexOf_append_of_mem (label_classes_mem.mp ha),
        List.indexOf_append_of_mem (label_classes_mem.mp hb)]
      exact hab
    · rw [if_neg hx]
      have hxl : x ∉ l := fun hmem => hx (label_classes_mem.mpr hmem)
      rw [List.pairwise_append]
      refine ⟨ih.imp_of_mem ?_, List.pairwise_singleton _ _, ?_⟩
      · intro a b ha hb hab
        rw [List.indexOf_append_of_mem (label_classes_mem.mp ha),
          List.indexOf_append_of_mem (label_classes_mem.mp hb)]
        exact hab
      · intro a ha b hb
        rw [List.mem_singleton] at hb
        subst hb
        have hal : a ∈ l := label_classes_mem.mp ha
        rw [List.indexOf_append_of_mem hal, List.indexOf_append_of_not_mem hxl,
          List.indexOf_cons_self]
        have := List.indexOf_lt_length.mpr hal
        omega

/-! Claim C8. -/

/-- C8: the left/right indicator rows of `compute_feature_split_ivs`
partition the samples (left holds 1 exactly when the value is at most the
threshold, right is its complement, and they sum to 1 pointwise), and
`compute_label_class_ivs` enumerates the distinct labels in first-occurrence
order (no duplicates, same membership as the label column, strictly
increasing first-occurrence positions) with exactly one class row holding 1
for every sample. -/
theorem claim_C8_indicator_invariants :
    (∀ fv sv : List ℚ, ∀ s i : ℕ, s < sv.length - 1 → i < fv.length →
      (((compute_feature_split_ivs fv sv).1.getD s []).getD i 0 = 1 ↔
        fv.getD i 0 ≤ sv.getD (s + 1) 0) ∧
      (((compute_feature_split_ivs fv sv).2.getD s []).getD i 0 = 1 ↔
        ¬ fv.getD i 0 ≤ sv.getD (s + 1) 0) ∧
      ((compute_feature_split_ivs fv sv).1.getD s []).getD i 0 +
        ((compute_feature_split_ivs fv sv).2.getD s []).getD i 0 = 1) ∧
    (∀ labels : List ℚ,
      (label_classes labels).Nodup ∧
      (∀ y : ℚ, y ∈ label_classes labels ↔ y ∈ labels) ∧
      List.Pairwise (fun a b => List.indexOf a labels < List.indexOf b labels)
        (label_classes labels) ∧
      (∀ i : ℕ, i < labels.length → ∃! j : ℕ,
        j < (label_classes labels).length ∧
        ((compute_label_class_ivs labels).getD j []).getD i 0 = 1)) := by
  constructor
  · intro fv sv s i hs hi
    have hrow1 : (compute_feature_split_ivs fv sv).1.getD s [] =
        fv.map fun x => if x ≤ sv.getD (s + 1) 0 then 1 else 0 :=
      getD_map_range _ _ hs
    have hrow2 : (compute_feature_split_ivs fv sv).2.getD s [] =
        fv.map fun x => if x ≤ sv.getD (s + 1) 0 then 0 else 1 :=
      getD_map_range _ _ hs
    rw [hrow1, hrow2, getD_map_entry _ hi, getD_map_entry _ hi]
    by_cases hc : fv.getD i 0 ≤ sv.getD (s + 1) 0
    · rw [if_pos hc, if_pos hc]
      exact ⟨iff_of_true rfl hc, iff_of_false (by norm_num) (not_not_intro hc), rfl⟩
    · rw [if_neg hc, if_neg hc]
      exact ⟨iff_of_false (by norm_num) hc, iff_of_true rfl hc, rfl⟩
  · intro labels
    refine ⟨label_classes_nodup labels, fun y => label_classes_mem,
      label_classes_first_occurrence labels, ?_⟩
    intro i hi
    have hmem : labels.getD i 0 ∈ labels := by
      rw [List.getD_eq_getElem?_getD, List.getElem?_eq_getElem hi, Option.getD_some]
      exact List.getElem_mem hi
    have hcls : labels.getD i 0 ∈ label_classes labels := label_classes_mem.mpr hmem
    have hjlt : List.indexOf (labels.getD i 0) (label_classes labels) <
        (label_classes labels).length := List.indexOf_lt_length.mpr hcls
    have hrow : ∀ j : ℕ, j < (label_classes labels).length →
        ((compute_label_class_ivs labels).getD j []).getD i 0 =
          if labels.getD i 0 = (label_classes labels).getD j 0 then 1 else 0 := by
      intro j hj
      have : (compute_label_class_ivs labels).getD j [] =
          labels.map fun x => if x = (label_classes labels).getD j 0 then 1 else 0 := by
        rw [compute_label_class_ivs, List.getD_eq_getElem?_getD, List.getElem?_map,
          List.getElem?_eq_getElem hj, Option.map_some', Option.getD_some,
          List.getD_eq_getElem?_getD, List.getElem?_eq_getElem hj, Option.getD_some]
      rw [this, getD_map_entry _ hi]
    refine ⟨List.indexOf (labels.getD i 0) (label_classes labels), ⟨hjlt, ?_⟩, ?_⟩
    · rw [hrow _ hjlt]
      have egetD : (label_classes labels).getD
          (List.indexOf (labels.getD i 0) (label_classes labels)) 0 =
          (label_classes labels)[List.indexOf (labels.getD i 0) (label_classes labels)] := by
        rw [List.getD_eq_getElem?_getD, List.getElem?_eq_getElem hjlt, Option.getD_some]
      rw [egetD, List.getElem_indexOf hjlt, if_pos rfl]
    · rintro j' ⟨hj', hv'⟩
      rw [hrow _ hj'] at hv'
      have heq : labels.getD i 0 = (label_classes labels).getD j' 0 := by
        by_contra hne
        rw [if_neg hne] at hv'
        exact absurd hv' (by norm_num)
      have egetD' : (label_classes labels).getD j' 0 = (label_classes labels)[j'] := by
        rw [List.getD_eq_getElem?_getD, List.getElem?_eq_getElem hj', Option.getD_some]
      have hidx : (label_classes labels)[j'] =
          (label_classes labels)[List.indexOf (labels.getD i 0) (label_classes labels)] := by
        rw [List.getElem_indexOf hjlt, ← egetD']
        exact heq.symm
      exact ((label_classes_nodup labels).getElem_inj_iff).mp hidx

/-- C8 witness: the theorem instantiated at the two-sample feature column
`[1, 3]` with split vector `[1, 2]` and the label column `[1, 2, 1]`. -/
theorem claim_C8_witness :
    0 < ([1, 2] : List ℚ).length - 1 ∧ 0 < ([1, 3] : List ℚ).length ∧
    ((((compute_feature_split_ivs [1, 3] [1, 2]).1.getD 0 []).getD 0 0 = 1 ↔
        ([1, 3] : List ℚ).getD 0 0 ≤ ([1, 2] : List ℚ).getD 1 0) ∧
      (((compute_feature_split_ivs [1, 3] [1, 2]).2.getD 0 []).getD 0 0 = 1 ↔
        ¬ ([1, 3] : List ℚ).getD 0 0 ≤ ([1, 2] : List ℚ).getD 1 0) ∧
      ((compute_feature_split_ivs [1, 3] [1, 2]).1.getD 0 []).getD 0 0 +
        ((compute_feature_split_ivs [1, 3] [1, 2]).2.getD 0 []).getD 0 0 = 1) ∧
    (label_classes [1, 2, 1]).Nodup ∧
    (0 : ℕ) < ([1, 2, 1] : List ℚ).length ∧
    (∃! j : ℕ, j < (label_classes [1, 2, 1]).length ∧
      ((compute_label_class_ivs [1, 2, 1]).getD j []).getD 0 0 = 1) :=
  ⟨of_decide_eq_true rfl, of_decide_eq_true rfl,
   claim_C8_indicator_invariants.1 [1, 3] [1, 2] 0 0
     (of_decide_eq_true rfl) (of_decide_eq_true rfl),
   (claim_C8_indicator_invariants.2 [1, 2, 1]).1,
   of_decide_eq_true rfl,
   (claim_C8_indicator_invariants.2 [1, 2, 1]).2.2.2 0 (of_decide_eq_true rfl)⟩

/-! Claim C10. -/

/-- C10: `compute_feature_split_ivs` takes its row-pair count from
`size(split_values) - 1` alone and never reads element 0 (replacing the
head of the split vector leaves the result unchanged); hence every
9-element split vector — the degenerate `[0, -1, …, -1]` included — yields
exactly 8 left/right row pairs, and with all-positive feature values the
sentinel thresholds produce all-zero left rows and all-one right rows. -/
theorem claim_C10_split_rows_from_size :
    (∀ fv sv : List ℚ, ∀ c c' : ℚ,
      compute_feature_split_ivs fv (c :: sv) = compute_feature_split_ivs fv (c' :: sv)) ∧
    (∀ fv sv : List ℚ, sv.length = 9 →
      (compute_feature_split_ivs fv sv).1.length = 8 ∧
      (compute_feature_split_ivs fv sv).2.length = 8) ∧
    (∀ fv : List ℚ, (∀ x ∈ fv, 0 < x) →
      compute_feature_split_ivs fv ((0 : ℚ) :: List.replicate 8 (-1)) =
        (List.replicate 8 (List.replicate fv.length 0),
         List.replicate 8 (List.replicate fv.length 1))) := by
  refine ⟨?_, ?_, ?_⟩
  · intro fv sv c c'
    simp only [compute_feature_split_ivs, List.length_cons, List.getD_cons_succ]
  · intro fv sv h
    refine ⟨?_, ?_⟩ <;>
      simp only [compute_feature_split_ivs, List.length_map, List.length_range, h]
  · intro fv hpos
    have hthr : ∀ s : ℕ, s < 8 →
        ((0 : ℚ) :: List.replicate 8 (-1)).getD (s + 1) 0 = -1 := by
      intro s hs
      rw [List.getD_cons_succ, List.getD_eq_getElem?_getD,
        List.getElem?_replicate_of_lt hs, Option.getD_some]
    have hlen : ((0 : ℚ) :: List.replicate 8 (-1)).length - 1 = 8 := by
      rw [List.length_cons, List.length_replicate]
    have hnotle : ∀ x ∈ fv, ¬ x ≤ (-1 : ℚ) := by
      intro x hx
      have := hpos x hx
      intro hle
      linarith
    rw [compute_feature_split_ivs, hlen]
    refine Prod.ext ?_ ?_
    · refine List.eq_replicate_iff.mpr ⟨by rw [List.length_map, List.length_range], ?_⟩
      intro row hrow
      rcases List.mem_map.mp hrow with ⟨s, hs, hrowEq⟩
      refine List.eq_replicate_iff.mpr ⟨?_, ?_⟩
      · rw [← hrowEq, List.length_map]
      · intro b hb
        rw [← hrowEq] at hb
        rcases List.mem_map.mp hb with ⟨x, hx, hbEq⟩
        rw [← hbEq, hthr s (List.mem_range.mp hs), if_neg (hnotle x hx)]
    · refine List.eq_replicate_iff.mpr ⟨by rw [List.length_map, List.length_range], ?_⟩
      intro row hrow
      rcases List.mem_map.mp hrow with ⟨s, hs, hrowEq⟩
      refine List.eq_replicate_iff.mpr ⟨?_, ?_⟩
      · rw [← hrowEq, List.length_map]
      · intro b hb
        rw [← hrowEq] at hb
        rcases List.mem_map.mp hb with ⟨x, hx, hbEq⟩
        rw [← hbEq, hthr s (List.mem_range.mp hs), if_neg (hnotle x hx)]

/-- C10 witness: the theorem instantiated on the degenerate split vector
`[0, -1, …, -1]` and the all-positive feature column `[1, 2]`. -/
theorem claim_C10_witness :
    ((0 : ℚ) :: List.replicate 8 (-1) : List ℚ).length = 9 ∧
    ((compute_feature_split_ivs [1, 2] ((0 : ℚ) :: List.replicate 8 (-1))).1.length = 8 ∧
     (compute_feature_split_ivs [1, 2] ((0 : ℚ) :: List.replicate 8 (-1))).2.length = 8) ∧
    (∀ x ∈ ([1, 2] : List ℚ), 0 < x) ∧
    compute_feature_split_ivs [1, 2] ((0 : ℚ) :: List.replicate 8 (-1)) =
      (List.replicate 8 (List.replicate ([1, 2] : List ℚ).length 0),
       List.replicate 8 (List.replicate ([1, 2] : List ℚ).length 1)) :=
  ⟨of_decide_eq_true rfl,
   claim_C10_split_rows_from_size.2.1 [1, 2] ((0 : ℚ) :: List.replicate 8 (-1))
     (of_decide_eq_true rfl),
   of_decide_eq_true rfl,
   claim_C10_split_rows_from_size.2.2 [1, 2] (of_decide_eq_true rfl)⟩

/-! Helper lemmas about the protocol client. -/

lemma aggregate_triples_length (p n : ℕ) (shares : List (List (Triple p))) :
    (aggregate_triples p n shares).length = n := by
  rw [aggregate_triples, List.length_map, List.length_range]

lemma aggregate_triples_getD {p n : ℕ} {shares : List (List (Triple p))} {i : ℕ}
    (h : i < n) :
    (aggregate_triples p n shares).getD i (0, 0, 0) =
      shares.foldl (fun acc party => addTriple acc (party.getD i (0, 0, 0))) (0, 0, 0) :=
  getD_map_range _ _ h

lemma aggregate_triples_getD_mem {p n : ℕ} {shares : List (List (Triple p))} {i : ℕ}
    (h : i < n) :
    (aggregate_triples p n shares).getD i (0, 0, 0) ∈ aggregate_triples p n shares := by
  have hi' : i < (aggregate_triples p n shares).length := by
    rw [aggregate_triples_length]; exact h
  rw [List.getD_eq_getElem?_getD, List.getElem?_eq_getElem hi', Option.getD_some]
  exact List.getElem_mem hi'

lemma aggregate_triples_mem_iff {p n : ℕ} {shares : List (List (Triple p))}
    {t : Triple p} :
    t ∈ aggregate_triples p n shares ↔
      ∃ i, i < n ∧ t = (aggregate_triples p n shares).getD i (0, 0, 0) := by
  constructor
  · intro ht
    rw [aggregate_triples] at ht
    rcases List.mem_map.mp ht with ⟨i, hi, hEq⟩
    have hi' : i < n := List.mem_range.mp hi
    exact ⟨i, hi', by rw [aggregate_triples_getD hi', ← hEq]⟩
  · rintro ⟨i, hi, hEq⟩
    rw [hEq]
    exact aggregate_triples_getD_mem hi

/-! Claim C1. -/

/-- C1: `send_private_inputs` aborts (exit(1), modelled as `none`, with
nothing written to any channel) exactly when some aggregated triple
`(a_i, b_i, c_i)` violates `a_i * b_i = c_i`; when every aggregated triple
satisfies the relation, no abort occurs at this step (the result is a
`some`, carrying the messages subsequently sent). -/
theorem claim_C1_triple_check_abort (p : ℕ) (values : List (ZMod p))
    (shares : List (List (Triple p))) (n_parties : ℕ) :
    send_private_inputs p values shares n_parties = none ↔
      ∃ i, i < values.length ∧
        ((aggregate_triples p values.length shares).getD i (0, 0, 0)).1 *
          ((aggregate_triples p values.length shares).getD i (0, 0, 0)).2.1 ≠
          ((aggregate_triples p values.length shares).getD i (0, 0, 0)).2.2 := by
  rw [send_private_inputs]
  by_cases hc : ∀ t ∈ aggregate_triples p values.length shares, t.1 * t.2.1 = t.2.2
  · rw [if_pos hc]
    constructor
    · intro h
      exact absurd h (Option.some_ne_none _)
    · rintro ⟨i, hi, hne⟩
      exact absurd (hc _ (aggregate_triples_getD_mem hi)) hne
  · rw [if_neg hc]
    constructor
    · intro _
      push_neg at hc
      rcases hc with ⟨t, ht, hne⟩
      rcases aggregate_triples_mem_iff.mp ht with ⟨i, hi, hEq⟩
      exact ⟨i, hi, by rw [← hEq]; exact hne⟩
    · intro _
      rfl

/-- C1 witness: with one input value and one engine supplying the
inconsistent aggregated triple `(2, 3, 7)` the client aborts; the abort
criterion of the theorem is checked at index 0. -/
theorem claim_C1_witness :
    (0 < ([5] : List (ZMod 101)).length ∧
      ((aggregate_triples 101 1 [[(2, 3, 7)]]).getD 0 (0, 0, 0)).1 *
        ((aggregate_triples 101 1 [[(2, 3, 7)]]).getD 0 (0, 0, 0)).2.1 ≠
        ((aggregate_triples 101 1 [[(2, 3, 7)]]).getD 0 (0, 0, 0)).2.2) ∧
    send_private_inputs 101 [5] [[(2, 3, 7)]] 2 = none :=
  ⟨⟨of_decide_eq_true rfl, of_decide_eq_true rfl⟩,
   (claim_C1_triple_check_abort 101 [5] [[(2, 3, 7)]] 2).mpr
     ⟨0, of_decide_eq_true rfl, of_decide_eq_true rfl⟩⟩

/-! Claim C2. -/

/-- C2: when every aggregated triple passes the check, the message sent is
`y_i = values[i] + a_i` with `a_i` the first component of the aggregated
`i`-th triple, the identical ordered sequence is sent to every one of the
`n_parties` engines, and `y_i - a_i = values[i]` holds in the field. -/
theorem claim_C2_masking (p : ℕ) (values : List (ZMod p))
    (shares : List (List (Triple p))) (n_parties : ℕ)
    (h : ∀ i, i < values.length →
      ((aggregate_triples p values.length shares).getD i (0, 0, 0)).1 *
        ((aggregate_triples p values.length shares).getD i (0, 0, 0)).2.1 =
        ((aggregate_triples p values.length shares).getD i (0, 0, 0)).2.2) :
    ∃ ys : List (ZMod p),
      send_private_inputs p values shares n_parties =
        some (List.replicate n_parties ys) ∧
      ys.length = values.length ∧
      ∀ i, i < values.length →
        ys.getD i 0 = values.getD i 0 +
          ((aggregate_triples p values.length shares).getD i (0, 0, 0)).1 ∧
        ys.getD i 0 -
          ((aggregate_triples p values.length shares).getD i (0, 0, 0)).1 =
          values.getD i 0 := by
  have hc : ∀ t ∈ aggregate_triples p values.length shares, t.1 * t.2.1 = t.2.2 := by
    intro t ht
    rcases aggregate_triples_mem_iff.mp ht with ⟨i, hi, hEq⟩
    rw [hEq]
    exact h i hi
  have hlen : (List.zipWith (fun v t => v + t.1) values
      (aggregate_triples p values.length shares)).length = values.length := by
    rw [List.length_zipWith, aggregate_triples_length, min_self]
  refine ⟨List.zipWith (fun v t => v + t.1) values
    (aggregate_triples p values.length shares), ?_, hlen, ?_⟩
  · rw [send_private_inputs, if_pos hc]
  · intro i hi
    have hzi : i < (List.zipWith (fun v t => v + t.1) values
        (aggregate_triples p values.length shares)).length := by rw [hlen]; exact hi
    have hai : i < (aggregate_triples p values.length shares).length := by
      rw [aggregate_triples_length]; exact hi
    have hy : (List.zipWith (fun v t => v + t.1) values
        (aggregate_triples p values.length shares)).getD i 0 =
        values.getD i 0 +
          ((aggregate_triples p values.length shares).getD i (0, 0, 0)).1 := by
      rw [List.getD_eq_getElem?_getD, List.getElem?_eq_getElem hzi, Option.getD_some,
        List.getElem_zipWith, List.getD_eq_getElem?_getD,
        List.getElem?_eq_getElem hi, Option.getD_some, List.getD_eq_getElem?_getD,
        List.getElem?_eq_getElem hai, Option.getD_some]
    exact ⟨hy, by rw [hy]; exact add_sub_cancel_right _ _⟩

/-- C2 witness: one value `5`, two engines whose triple shares aggregate to
the consistent triple `(2, 3, 6)`; the masked message is `5 + 2 = 7`. -/
theorem claim_C2_witness :
    (0 < ([5] : List (ZMod 101)).length ∧
      ((aggregate_triples 101 1 [[(1, 1, 2)], [(1, 2, 4)]]).getD 0 (0, 0, 0)).1 *
        ((aggregate_triples 101 1 [[(1, 1, 2)], [(1, 2, 4)]]).getD 0 (0, 0, 0)).2.1 =
        ((aggregate_triples 101 1 [[(1, 1, 2)], [(1, 2, 4)]]).getD 0 (0, 0, 0)).2.2) ∧
    ∃ ys : List (ZMod 101),
      send_private_inputs 101 [5] [[(1, 1, 2)], [(1, 2, 4)]] 2 =
        some (List.replicate 2 ys) ∧
      ys.length = ([5] : List (ZMod 101)).length ∧
      ∀ i, i < ([5] : List (ZMod 101)).length →
        ys.getD i 0 = ([5] : List (ZMod 101)).getD i 0 +
          ((aggregate_triples 101 1 [[(1, 1, 2)], [(1, 2, 4)]]).getD i (0, 0, 0)).1 ∧
        ys.getD i 0 -
          ((aggregate_triples 101 1 [[(1, 1, 2)], [(1, 2, 4)]]).getD i (0, 0, 0)).1 =
          ([5] : List (ZMod 101)).getD i 0 :=
  ⟨⟨of_decide_eq_true rfl, of_decide_eq_true rfl⟩,
   claim_C2_masking 101 [5] [[(1, 1, 2)], [(1, 2, 4)]] 2
     (fun i hi => by
       have hlen1 : ([5] : List (ZMod 101)).length = 1 := rfl
       have hi0 : i = 0 := by omega
       subst hi0
       exact of_decide_eq_true rfl)⟩

/-! Claim C6. -/

/-- C round never moves a value by more than one half. -/
lemma abs_cround_sub_le (y : ℚ) : |(cround y : ℚ) - y| ≤ 1 / 2 := by
  rw [cround]
  by_cases hy : 0 ≤ y
  · rw [if_pos hy]
    have h1 : ((⌊y + 1 / 2⌋ : ℤ) : ℚ) ≤ y + 1 / 2 := Int.floor_le _
    have h2 : y + 1 / 2 - 1 < ((⌊y + 1 / 2⌋ : ℤ) : ℚ) := Int.sub_one_lt_floor _
    rw [abs_le]
    constructor <;> linarith
  · rw [if_neg hy]
    have h1 : y - 1 / 2 ≤ ((⌈y - 1 / 2⌉ : ℤ) : ℚ) := Int.le_ceil _
    have h2 : ((⌈y - 1 / 2⌉ : ℤ) : ℚ) < y - 1 / 2 + 1 := Int.ceil_lt_add_one _
    rw [abs_le]
    constructor <;> linarith

/-- C6: `send_private_batch_shares` encodes each float as
`round(x * 2^8)` lifted into the field and delegates to
`send_private_inputs`; for `|x| < 2^8` the decoded value
`encode_fixed x / 2^8` differs from `x` by at most `2^-8`; and
`x = 3.5` encodes to `896` and decodes back to `3.5` exactly. -/
theorem claim_C6_fixed_point :
    (∀ (p : ℕ) (shares : List ℚ) (triple_shares : List (List (Triple p)))
        (n_parties : ℕ),
      send_private_batch_shares p shares triple_shares n_parties =
        send_private_inputs p (shares.map fun x => ((encode_fixed x : ℤ) : ZMod p))
          triple_shares n_parties) ∧
    (∀ x : ℚ, |x| < 2 ^ SPDZ_FIXED_PRECISION →
      |(encode_fixed x : ℚ) / 2 ^ SPDZ_FIXED_PRECISION - x| ≤
        ((2 : ℚ) ^ SPDZ_FIXED_PRECISION)⁻¹) ∧
    encode_fixed (7 / 2) = 896 ∧
    ((896 : ℤ) : ℚ) / 2 ^ SPDZ_FIXED_PRECISION = 7 / 2 := by
  refine ⟨?_, ?_, ?_, ?_⟩
  · intro p shares triple_shares n_parties
    simp only [send_private_batch_shares]
    rw [List.map_map]
    rfl
  · intro x hx
    have hb := abs_cround_sub_le (x * 2 ^ SPDZ_FIXED_PRECISION)
    have hpos : (0 : ℚ) < 2 ^ SPDZ_FIXED_PRECISION := by
      rw [SPDZ_FIXED_PRECISION]
      norm_num
    rw [encode_fixed]
    have hsplit : (cround (x * 2 ^ SPDZ_FIXED_PRECISION) : ℚ) /
        2 ^ SPDZ_FIXED_PRECISION - x =
        ((cround (x * 2 ^ SPDZ_FIXED_PRECISION) : ℚ) -
          x * 2 ^ SPDZ_FIXED_PRECISION) / 2 ^ SPDZ_FIXED_PRECISION := by
      field_simp
      ring
    rw [hsplit, abs_div, abs_of_pos hpos, div_le_iff₀ hpos,
      inv_mul_cancel₀ (ne_of_gt hpos)]
    linarith
  · rw [encode_fixed, SPDZ_FIXED_PRECISION, cround,
      if_pos (by norm_num : (0 : ℚ) ≤ 7 / 2 * 2 ^ 8)]
    rw [show (7 : ℚ) / 2 * 2 ^ 8 + 1 / 2 = (896 : ℤ) + 1 / 2 by norm_num,
      Int.floor_int_add]
    norm_num
  · rw [SPDZ_FIXED_PRECISION]
    norm_num

/-- C6 witness: the round-trip bound instantiated at `x = 3.5`. -/
theorem claim_C6_witness :
    |(7 / 2 : ℚ)| < 2 ^ SPDZ_FIXED_PRECISION ∧
    |(encode_fixed (7 / 2) : ℚ) / 2 ^ SPDZ_FIXED_PRECISION - 7 / 2| ≤
      ((2 : ℚ) ^ SPDZ_FIXED_PRECISION)⁻¹ :=
  ⟨by
    rw [SPDZ_FIXED_PRECISION, abs_of_pos (by norm_num : (0 : ℚ) < 7 / 2)]
    norm_num,
   claim_C6_fixed_point.2.1 (7 / 2) (by
    rw [SPDZ_FIXED_PRECISION, abs_of_pos (by norm_num : (0 : ℚ) < 7 / 2)]
    norm_num)⟩

/-! Claim C9. -/

/-- Unrolling the engine loop of `receive_result`: after folding over the
engines `0..K-1`, slot `j` of the accumulator holds the sum, in engine
order, of the `j`-th element received from each engine. -/
lemma receive_fold (p size : ℕ) (shares : List (List (ZMod p))) : ∀ K : ℕ,
    (List.range K).foldl
      (fun acc i =>
        (List.range size).map fun j => acc.getD j 0 + (shares.getD i []).getD j 0)
      ((List.range size).map fun _ => (0 : ZMod p)) =
    (List.range size).map fun j => engine_sum p shares K j := by
  intro K
  induction K with
  | zero =>
    rw [List.range_zero, List.foldl_nil]
    apply List.map_congr_left
    intro j hj
    rw [engine_sum, List.range_zero, List.map_nil, List.sum_nil]
  | succ K ih =>
    rw [List.range_succ, List.foldl_append, List.foldl_cons, List.foldl_nil, ih]
    apply List.map_congr_left
    intro j hj
    rw [getD_map_range _ _ (List.mem_range.mp hj)]
    rw [engine_sum, engine_sum, List.range_succ, List.map_append, List.sum_append,
      List.map_cons, List.map_nil, List.sum_cons, List.sum_nil, add_zero]

/-- C9: `receive_result` reconstructs slot `j` as the sum of the `j`-th
received element over the engines in index order, returns `size - 1` floats
with the `i`-th equal to `decode_signed(sum_i) * 2^-8`, and sets the best
split index to the signed decoding of the last slot. -/
theorem claim_C9_receive_result (p : ℕ) (shares : List (List (ZMod p)))
    (n_parties size : ℕ) (h : 1 ≤ size) :
    (receive_result p shares n_parties size).1.length = size - 1 ∧
    (∀ i, i < size - 1 → (receive_result p shares n_parties size).1.getD i 0 =
      (to_signed p (engine_sum p shares n_parties i) : ℚ) *
        ((2 : ℚ) ^ SPDZ_FIXED_PRECISION)⁻¹) ∧
    (receive_result p shares n_parties size).2 =
      to_signed p (engine_sum p shares n_parties (size - 1)) := by
  simp only [receive_result]
  rw [receive_fold p size shares n_parties]
  refine ⟨?_, ?_, ?_⟩
  · rw [List.length_map, List.length_range]
  · intro i hi
    rw [getD_map_range _ _ hi, getD_map_range _ _ (by omega : i < size)]
  · rw [getD_map_range _ _ (by omega : size - 1 < size)]

/-- C9 witness: two engines, vector size 2, shares `[1,2]` and `[3,4]`;
the sums are `4` and `6`, decoded as one float and one index. -/
theorem claim_C9_witness :
    (1 : ℕ) ≤ 2 ∧
    ((receive_result 101 [[1, 2], [3, 4]] 2 2).1.length = 2 - 1 ∧
     (∀ i, i < 2 - 1 → (receive_result 101 [[1, 2], [3, 4]] 2 2).1.getD i 0 =
       (to_signed 101 (engine_sum 101 [[1, 2], [3, 4]] 2 i) : ℚ) *
         ((2 : ℚ) ^ SPDZ_FIXED_PRECISION)⁻¹) ∧
     (receive_result 101 [[1, 2], [3, 4]] 2 2).2 =
       to_signed 101 (engine_sum 101 [[1, 2], [3, 4]] 2 (2 - 1))) :=
  ⟨of_decide_eq_true rfl,
   claim_C9_receive_result 101 [[1, 2], [3, 4]] 2 2 (of_decide_eq_true rfl)⟩

end PivotSPDZ
